import Mathlib

/-!
Verification of the refresh/cache core of a S.M.A.R.T. telemetry collector
(single source file of the repository: a Go file building on the gjson
JSON library, the os/exec process runner and a structured logger).

The development shallowly embeds the program:

* JSON documents are modelled by the inductive type Json.  Scalar string
  and number nodes keep the raw lexeme exactly as it stood in the input
  text, mirroring how the gjson library keeps raw text and converts
  lazily.
* The gjson validity check and parser (gjson.Valid / gjson.Parse) are
  modelled by an executable recursive-descent parser over the character
  list of the input, faithful to the strict JSON grammar that
  gjson.Valid implements (the repository only ever parses text that
  passed the validity check, or the literal empty-object text).
* The external process invocation is modelled by an ExecResult value:
  normal exit with captured stdout, non-zero exit with captured partial
  stdout, or a launch failure (binary missing, permission denied), which
  in Go yields a nil output slice, i.e. the empty string.
* The process-wide sync.Map cache is modelled as a function from devices
  to optional cache entries; time.Time is modelled as Nat.
* The structured logger is modelled by returning the list of emitted log
  events next to each result.
-/

/-- Log severities used by the program (slog levels). -/
inductive LogLevel where
  | debug
  | warn
  | error
deriving DecidableEq, Repr

/-- A log event: severity and message text. -/
abbrev LogEntry : Type := LogLevel × String

/-- JSON documents as consumed by the program.  String bodies and number
lexemes are kept raw (exactly the characters of the source text between
the delimiters), the way gjson keeps raw text in its Result values. -/
inductive Json where
  | null : Json
  | bool (b : Bool) : Json
  | num (lexeme : List Char) : Json
  | str (rawBody : List Char) : Json
  | arr (elems : List Json) : Json
  | obj (fields : List (List Char × Json)) : Json

/-- JSON whitespace, as accepted by the gjson validator. -/
def isWs (c : Char) : Bool := c = ' ' || c = '\t' || c = '\n' || c = '\r'

/-- Skip leading JSON whitespace. -/
def skipWs : List Char → List Char
  | [] => []
  | c :: t => if isWs c then skipWs t else c :: t

/-- Hexadecimal digit test (for string escapes of the form backslash-u). -/
def isHexDig (c : Char) : Bool :=
  c.isDigit || ('a' ≤ c && c ≤ 'f') || ('A' ≤ c && c ≤ 'F')

/-- Single-character escapes accepted after a backslash in a JSON string. -/
def isEsc (c : Char) : Bool :=
  c = '"' || c = '\\' || c = '/' || c = 'b' || c = 'f' || c = 'n' || c = 'r' || c = 't'

/-- Lex the body of a JSON string, the opening quote already consumed.
Returns the raw body (escapes kept) and the input after the closing
quote.  Mirrors the gjson string validator: control characters below
space are rejected, a backslash must introduce a listed escape, and a
backslash-u escape needs four hex digits. -/
def pstr : List Char → Option (List Char × List Char)
  | [] => none
  | c :: t =>
    if c = '"' then some ([], t)
    else if c = '\\' then
      match t with
      | [] => none
      | e :: t2 =>
        if e = 'u' then
          match t2 with
          | h1 :: h2 :: h3 :: h4 :: t3 =>
            if isHexDig h1 && isHexDig h2 && isHexDig h3 && isHexDig h4 then
              match pstr t3 with
              | none => none
              | some (body, rest) => some (c :: e :: h1 :: h2 :: h3 :: h4 :: body, rest)
            else none
          | _ => none
        else if isEsc e then
          match pstr t2 with
          | none => none
          | some (body, rest) => some (c :: e :: body, rest)
        else none
    else if c.toNat < 32 then none
    else
      match pstr t with
      | none => none
      | some (body, rest) => some (c :: body, rest)

/-- Well-formedness of a raw string body: exactly the bodies the string
lexer can produce. -/
def okBody : List Char → Bool
  | [] => true
  | c :: t =>
    if c = '"' then false
    else if c = '\\' then
      match t with
      | [] => false
      | e :: t2 =>
        if e = 'u' then
          match t2 with
          | h1 :: h2 :: h3 :: h4 :: t3 =>
            (isHexDig h1 && isHexDig h2 && isHexDig h3 && isHexDig h4) && okBody t3
          | _ => false
        else if isEsc e then okBody t2
        else false
    else if c.toNat < 32 then false
    else okBody t

/-- Split a character list into its leading run of decimal digits and
the remainder. -/
def spanDigits : List Char → List Char × List Char
  | [] => ([], [])
  | c :: t =>
    if c.isDigit then
      match spanDigits t with
      | (a, b) => (c :: a, b)
    else ([], c :: t)

/-- Integer part of a JSON number (sign already consumed): a single zero
or a nonzero digit followed by digits.  Returns the lexeme part and the
remainder. -/
def pint : List Char → Option (List Char × List Char)
  | [] => none
  | c :: t =>
    if c = '0' then some (['0'], t)
    else if c.isDigit then
      match spanDigits t with
      | (a, b) => some (c :: a, b)
    else none

/-- Optional fraction part of a JSON number: a dot followed by at least
one digit, or nothing. -/
def pfrac : List Char → Option (List Char × List Char)
  | [] => some ([], [])
  | c :: t =>
    if c = '.' then
      match t with
      | [] => none
      | d :: t2 =>
        if d.isDigit then
          match spanDigits t2 with
          | (a, b) => some (c :: d :: a, b)
        else none
    else some ([], c :: t)

/-- Optional exponent part of a JSON number: e or E, an optional sign,
and at least one digit, or nothing. -/
def pexp : List Char → Option (List Char × List Char)
  | [] => some ([], [])
  | c :: t =>
    if c = 'e' || c = 'E' then
      match t with
      | [] => none
      | s :: t2 =>
        if s = '+' || s = '-' then
          match t2 with
          | [] => none
          | d :: t3 =>
            if d.isDigit then
              match spanDigits t3 with
              | (a, b) => some (c :: s :: d :: a, b)
            else none
        else if s.isDigit then
          match spanDigits t2 with
          | (a, b) => some (c :: s :: a, b)
        else none
    else some ([], c :: t)

/-- Unsigned number lexing: integer part, optional fraction, optional
exponent. -/
def pnumCore (cs : List Char) : Option (List Char × List Char) :=
  match pint cs with
  | none => none
  | some (ip, r1) =>
    match pfrac r1 with
    | none => none
    | some (fp, r2) =>
      match pexp r2 with
      | none => none
      | some (ep, r3) => some (ip ++ fp ++ ep, r3)

/-- Lex a JSON number (strict grammar, as the gjson validator checks
it): optional minus sign, integer part, optional fraction, optional
exponent.  Returns the lexeme and the remainder. -/
def pnum (cs : List Char) : Option (List Char × List Char) :=
  match cs with
  | '-' :: t =>
    match pnumCore t with
    | none => none
    | some (lx, r) => some ('-' :: lx, r)
  | _ => pnumCore cs

/-- A number lexeme is well formed when the number lexer accepts exactly
it, with nothing left over. -/
def numOk (l : List Char) : Bool := decide (pnum l = some (l, []))

/-- Expect a colon, surrounded by optional whitespace on the left. -/
def pcolon (cs : List Char) : Option (List Char) :=
  match skipWs cs with
  | ':' :: t => some t
  | _ => none

/-- Parser mode: a whole value, the tail of an array after at least one
element, or the tail of an object after at least one member. -/
inductive PMode where
  | val
  | arrTail (acc : List Json)
  | objTail (acc : List (List Char × Json))

/-- Recursive-descent JSON parser, fuel-indexed so that the recursion is
structural.  Every recursive call consumes at least one character, so
fuel exceeding the input length never runs out.  The grammar is the one
the gjson validator accepts: a single value, with strict strings and
numbers, arrays and objects with comma-separated members. -/
def pstep : Nat → PMode → List Char → Option (Json × List Char)
  | 0, _, _ => none
  | fuel + 1, .val, cs =>
    match skipWs cs with
    | [] => none
    | c :: t =>
      if c = '{' then
        match skipWs t with
        | [] => none
        | c2 :: t2 =>
          if c2 = '}' then some (.obj [], t2)
          else if c2 = '"' then
            match pstr t2 with
            | none => none
            | some (k, r1) =>
              match pcolon r1 with
              | none => none
              | some r2 =>
                match pstep fuel .val r2 with
                | none => none
                | some (v, r3) => pstep fuel (.objTail [(k, v)]) r3
          else none
      else if c = '[' then
        match skipWs t with
        | [] => none
        | c2 :: t2 =>
          if c2 = ']' then some (.arr [], t2)
          else
            match pstep fuel .val (c2 :: t2) with
            | none => none
            | some (v, r1) => pstep fuel (.arrTail [v]) r1
      else if c = '"' then
        match pstr t with
        | none => none
        | some (body, rest) => some (.str body, rest)
      else if c = '-' || c.isDigit then
        match pnum (c :: t) with
        | none => none
        | some (lex, rest) => some (.num lex, rest)
      else if c = 't' then
        match t with
        | 'r' :: 'u' :: 'e' :: t2 => some (.bool true, t2)
        | _ => none
      else if c = 'f' then
        match t with
        | 'a' :: 'l' :: 's' :: 'e' :: t2 => some (.bool false, t2)
        | _ => none
      else if c = 'n' then
        match t with
        | 'u' :: 'l' :: 'l' :: t2 => some (.null, t2)
        | _ => none
      else none
  | fuel + 1, .arrTail acc, cs =>
    match skipWs cs with
    | [] => none
    | c :: t =>
      if c = ',' then
        match pstep fuel .val t with
        | none => none
        | some (v, r) => pstep fuel (.arrTail (acc ++ [v])) r
      else if c = ']' then some (.arr acc, t)
      else none
  | fuel + 1, .objTail acc, cs =>
    match skipWs cs with
    | [] => none
    | c :: t =>
      if c = ',' then
        match skipWs t with
        | '"' :: t2 =>
          match pstr t2 with
          | none => none
          | some (k, r1) =>
            match pcolon r1 with
            | none => none
            | some r2 =>
              match pstep fuel .val r2 with
              | none => none
              | some (v, r3) => pstep fuel (.objTail (acc ++ [(k, v)])) r3
        | _ => none
      else if c = '}' then some (.obj acc, t)
      else none

/-- gjson.Valid: the text holds exactly one JSON value, possibly
surrounded by whitespace. -/
def gjsonValid (s : String) : Bool :=
  match pstep (s.data.length + 1) .val s.data with
  | some (_, rest) => rest.all isWs
  | none => false

/-- gjson.Parse, restricted to how the program uses it: on text that
passed gjson.Valid it yields the parsed document; on anything else the
zero Result, modelled as Json.null.  (The program only parses text
guarded by the validity check, or the literal empty-object text.) -/
def gjsonParse (s : String) : Json :=
  match pstep (s.data.length + 1) .val s.data with
  | some (v, _) => v
  | none => Json.null

/-- The empty-object text, spelled as a character list. -/
def emptyObjText : String := String.mk ['{', '}']

/-- Source function parseJSON: parse, substituting the empty document
for invalid or empty text. -/
def parseJSON (data : String) : Json :=
  if !(gjsonValid data) then gjsonParse emptyObjText
  else gjsonParse data

/- Canonical rendering of a document back to text (no whitespace, raw
lexemes emitted verbatim).  Plays the role of serializing a parsed
result; for documents produced by the parser it inverts parsing. -/
mutual
def render : Json → List Char
  | .null => "null".data
  | .bool true => "true".data
  | .bool false => "false".data
  | .num l => l
  | .str b => '"' :: (b ++ ['"'])
  | .arr [] => ['[', ']']
  | .arr (x :: xs) => '[' :: (render x ++ (renderTail xs ++ [']']))
  | .obj [] => ['{', '}']
  | .obj (kv :: kvs) => '{' :: (renderKV kv ++ (renderKVTail kvs ++ ['}']))
def renderTail : List Json → List Char
  | [] => []
  | x :: xs => ',' :: (render x ++ renderTail xs)
def renderKV : List Char × Json → List Char
  | (k, v) => '"' :: (k ++ ('"' :: ':' :: render v))
def renderKVTail : List (List Char × Json) → List Char
  | [] => []
  | kv :: kvs => ',' :: (renderKV kv ++ renderKVTail kvs)
end

/-- Unescape a raw JSON string body (gjson unquoting).  A backslash-u
escape becomes the character with that code; gjson additionally
recombines surrogate pairs, which the program never depends on, so here
each escape yields its own code unit. -/
def hexVal (c : Char) : Nat :=
  if c.isDigit then c.toNat - 48
  else if 'a' ≤ c && c ≤ 'f' then c.toNat - 87
  else if 'A' ≤ c && c ≤ 'F' then c.toNat - 55
  else 0

/-- Translation of a single-character escape. -/
def unescEsc (e : Char) : Char :=
  if e = 'b' then Char.ofNat 8
  else if e = 'f' then Char.ofNat 12
  else if e = 'n' then '\n'
  else if e = 'r' then '\r'
  else if e = 't' then '\t'
  else e

/-- Unescape a raw string body. -/
def unesc : List Char → List Char
  | [] => []
  | c :: t =>
    if c = '\\' then
      match t with
      | [] => []
      | e :: t2 =>
        if e = 'u' then
          match t2 with
          | h1 :: h2 :: h3 :: h4 :: t3 =>
            Char.ofNat (((hexVal h1 * 16 + hexVal h2) * 16 + hexVal h3) * 16 + hexVal h4) :: unesc t3
          | _ => []
        else unescEsc e :: unesc t2
    else c :: unesc t

/-- gjson Result.Get with a plain object key: first matching member, by
unescaped key.  On non-objects the path misses. -/
def jget (j : Json) (key : String) : Option Json :=
  match j with
  | .obj fields =>
    match fields.find? (fun kv => String.mk (unesc kv.1) == key) with
    | some kv => some kv.2
    | none => none
  | _ => none

/-- gjson Result.Get with a dotted path, modelled as iterated plain-key
lookup; a miss anywhere makes the whole path miss (the zero Result,
whose Exists() is false). -/
def getPath : Json → List String → Option Json
  | j, [] => some j
  | j, k :: ks =>
    match jget j k with
    | none => none
    | some v => getPath v ks

/-- gjson Result.Array(): a JSON array yields its elements; a null value
or a missed path yields no elements; an object yields no elements (the
iterator looks for a literal bracket); a scalar yields itself. -/
def jarrayOf : Option Json → List Json
  | none => []
  | some .null => []
  | some (.arr xs) => xs
  | some (.obj _) => []
  | some v => [v]

/-- gjson Result.String(): empty for null/missing, the words true/false
for booleans, the lexeme for numbers (gjson reformats non-plain-integer
lexemes through float formatting, which the program never reads), the
unescaped body for strings, and raw text (modelled as the canonical
rendering) for arrays and objects. -/
def jstring : Option Json → String
  | none => ""
  | some .null => ""
  | some (.bool true) => "true"
  | some (.bool false) => "false"
  | some (.num l) => String.mk l
  | some (.str b) => String.mk (unesc b)
  | some (.arr xs) => String.mk (render (.arr xs))
  | some (.obj kvs) => String.mk (render (.obj kvs))

/-- Decimal value of a digit string. -/
def digitsVal (l : List Char) : Nat := l.foldl (fun a c => a * 10 + (c.toNat - 48)) 0

/-- gjson parseInt: optional minus sign then decimal digits, nothing
else; any other shape fails (and the caller substitutes zero). -/
def parseIntChars (l : List Char) : Option Int :=
  match l with
  | '-' :: t => if t ≠ [] && t.all Char.isDigit then some (-(digitsVal t : Int)) else none
  | _ => if l ≠ [] && l.all Char.isDigit then some ((digitsVal l : Int)) else none

/-- gjson Result.Int(): zero for null/missing/containers, one/zero for
booleans, integer parse of the text for strings, and the numeric value
for numbers.  A number lexeme that is not a plain integer goes through
float conversion in gjson; the program only ever reads integer status
codes, so that case is modelled as the zero fallback. -/
def jint : Option Json → Int
  | none => 0
  | some .null => 0
  | some (.bool true) => 1
  | some (.bool false) => 0
  | some (.str b) => (parseIntChars (unesc b)).getD 0
  | some (.num l) => (parseIntChars l).getD 0
  | some (.arr _) => 0
  | some (.obj _) => 0

/-- A device: name/path and access-type tag (Go struct fields Name and
Type), compared by value as a cache key. -/
structure Device where
  Name : String
  Typ : String
deriving DecidableEq

/-- A cache entry: the admitted document and its collection time. -/
structure JSONCache where
  JSON : Json
  LastCollect : Nat

/-- The process-wide sync.Map keyed by devices. -/
def Cache : Type := Device → Option JSONCache

/-- sync.Map.Store. -/
def storeCache (m : Cache) (d : Device) (v : JSONCache) : Cache :=
  fun d2 => if d2 = d then some v else m d2

/-- Outcome of running the external tool (exec Command().Output()):
normal exit with stdout, non-zero exit with captured partial stdout, or
a launch failure (binary missing, permission denied), which yields a nil
output slice, i.e. empty text, and a non-ExitError error value. -/
inductive ExecResult where
  | success (out : String)
  | exitError (code : Int) (out : String)
  | launchError

/-- Captured stdout of an invocation. -/
def ExecResult.stdout : ExecResult → String
  | .success out => out
  | .exitError _ out => out
  | .launchError => ""

/-- Whether the invocation returned a non-nil error. -/
def ExecResult.isErr : ExecResult → Bool
  | .success _ => false
  | _ => true

/-- strings.TrimPrefix: drop the prefix when present, else return the
text unchanged. -/
def trimLeft (s p : String) : String :=
  if p.data.isPrefixOf s.data then String.mk (s.data.drop p.data.length) else s

/-- The single-line textual artifact some smartmontools versions (pre
7.3) erroneously prepend to the JSON output. -/
def smartctlArtifact : String := "  Pending defect count:"

/-- Source function resultCodeIsOk: decode the smartctl exit status as
independent bit flags.  Bits 0 and 1 are errors and make the result
inadmissible; bits 2 to 7 are logged as warnings only.  A non-positive
code skips every test.  For a positive int64 the Go test
(b and (1 shl k)) != 0 is a test of bit k of the magnitude, modelled on
Nat after Int.toNat. -/
def resultCodeIsOk (SMARTCtlResult : Int) : Bool × List LogEntry :=
  if SMARTCtlResult > 0 then
    let b := SMARTCtlResult.toNat
    let s1 : Bool × List LogEntry :=
      if b &&& 1 ≠ 0 then
        (false, [(.error, "Command line did not parse")])
      else (true, [])
    let s2 :=
      if b &&& (1 <<< 1) ≠ 0 then
        (false, s1.2 ++ [(.error, "Device open failed, device did not return an IDENTIFY DEVICE structure, or device is in a low-power mode")])
      else s1
    let s3 :=
      if b &&& (1 <<< 2) ≠ 0 then
        (s2.1, s2.2 ++ [(.warn, "Some SMART or other ATA command to the disk failed, or there was a checksum error in a SMART data structure")])
      else s2
    let s4 :=
      if b &&& (1 <<< 3) ≠ 0 then
        (s3.1, s3.2 ++ [(.warn, "SMART status check returned DISK FAILING")])
      else s3
    let s5 :=
      if b &&& (1 <<< 4) ≠ 0 then
        (s4.1, s4.2 ++ [(.warn, "We found prefail Attributes <= threshold")])
      else s4
    let s6 :=
      if b &&& (1 <<< 5) ≠ 0 then
        (s5.1, s5.2 ++ [(.warn, "SMART status check returned DISK OK but we found that some (usage or prefail) Attributes have been <= threshold at some time in the past")])
      else s5
    let s7 :=
      if b &&& (1 <<< 6) ≠ 0 then
        (s6.1, s6.2 ++ [(.warn, "The device error log contains records of errors")])
      else s6
    let s8 :=
      if b &&& (1 <<< 7) ≠ 0 then
        (s7.1, s7.2 ++ [(.warn, "The device self-test log contains records of errors. [ATA only] Failed self-tests outdated by a newer successful extended self-test are ignored")])
      else s7
    s8
  else (true, [])

/-- The message-scanning loop of jsonIsOk: return inadmissible at the
first entry whose severity is the literal word error, logging that
entry's text. -/
def scanMessages : List Json → Bool × List LogEntry
  | [] => (true, [])
  | m :: rest =>
    if jstring (getPath m ["severity"]) == "error" then
      (false, [(.error, jstring (getPath m ["string"]))])
    else scanMessages rest

/-- Source function jsonIsOk: when the smartctl.messages path exists,
scan its entries for an error-severity message; otherwise the document
is fine. -/
def jsonIsOk (json : Json) : Bool × List LogEntry :=
  match getPath json ["smartctl", "messages"] with
  | none => (true, [])
  | some messages => scanMessages (jarrayOf (some messages))

/-- Source function readSMARTctl: run the tool for one device, log a
warning on an invocation error, strip the known artifact from stdout,
parse, decode the status code and the message list, and store the
document in the cache only when both checks admit it.  The wait-group
bookkeeping carries no data and is handled by the orchestrator model. -/
def readSMARTctl (device : Device) (oc : ExecResult) (now : Nat) (cache : Cache) :
    Cache × List LogEntry :=
  let argLogs : List LogEntry := [(.debug, "Calling smartctl with args")]
  let errLogs : List LogEntry := if oc.isErr then [(.warn, "S.M.A.R.T. output reading")] else []
  let cleaned_out := trimLeft oc.stdout smartctlArtifact
  let json := parseJSON cleaned_out
  let rc := resultCodeIsOk (jint (getPath json ["smartctl", "exit_status"]))
  let jk := jsonIsOk json
  let logs := argLogs ++ errLogs ++ rc.2 ++ jk.2 ++ [(.debug, "Collected S.M.A.R.T. json data")]
  if rc.1 && jk.1 then
    (storeCache cache device { JSON := json, LastCollect := now }, logs)
  else (cache, logs)

/-- Source function readSMARTctlDevices: run the tool in scan mode.  A
non-zero exit other than 2 and a launch failure are warned about and
yield the zero Result; exit status 2 (devices sleeping) is ignored and
the captured partial output is parsed like a normal success. -/
def readSMARTctlDevices (oc : ExecResult) : Json × List LogEntry :=
  match oc with
  | .exitError code out =>
    if code ≠ 2 then
      (Json.null, [(.debug, "Exit Status"), (.warn, "S.M.A.R.T. output reading error")])
    else (parseJSON out, [(.debug, "Exit Status")])
  | .launchError => (Json.null, [(.warn, "S.M.A.R.T. output reading error")])
  | .success out => (parseJSON out, [])

/-- The staleness test inlined in the refresh loop: no cache entry, or
now is strictly past the entry's collection time plus the interval. -/
def isStale (cache : Cache) (interval now : Nat) (device : Device) : Bool :=
  match cache device with
  | none => true
  | some cacheValue => now > cacheValue.LastCollect + interval

/-- Run the per-device collections of one refresh cycle.  The Go code
fans these out as one goroutine per device and joins on a wait group;
since each collection writes only its own key, the joined result is
modelled as the left fold of the collections. -/
def collectAll (outcomes : Device → ExecResult) (now : Nat) :
    List Device → Cache → Cache
  | [], cache => cache
  | d :: ds, cache => collectAll outcomes now ds (readSMARTctl d (outcomes d) now cache).1

/-- Source function refreshAllDevices: a no-op in fake-data mode; else
collect, concurrently, every device whose entry is missing or older
than the interval, and wait for all of them. -/
def refreshAllDevices (fakeData : Bool) (interval now : Nat)
    (outcomes : Device → ExecResult) (devices : List Device) (cache : Cache) : Cache :=
  if fakeData then cache
  else collectAll outcomes now (devices.filter (fun device => isStale cache interval now device)) cache

/-- Source function readData: fixture data in fake mode (file reading
modelled as a supplied per-device document); otherwise a cache lookup,
warning and returning the zero Result for a device never collected. -/
def readData (fakeData : Bool) (fakeDoc : Device → Json) (cache : Cache) (device : Device) :
    Json × List LogEntry :=
  if fakeData then (fakeDoc device, [])
  else
    match cache device with
    | none => (Json.null, [(.warn, "device not found")])
    | some cacheValue => (cacheValue.JSON, [])

/-- Go bit test on a nonnegative value: (b and (1 shl k)) != 0 is the
k-th bit of the magnitude. -/
theorem and_shl_ne_iff (n k : Nat) : (n &&& (1 <<< k) ≠ 0) ↔ n.testBit k = true := by
  rw [Nat.shiftLeft_eq, one_mul, Nat.and_two_pow]
  cases h : n.testBit k <;> simp

/-- Special case for the literal mask 1. -/
theorem and_one_ne_iff (n : Nat) : (n &&& 1 ≠ 0) ↔ n.testBit 0 = true :=
  and_shl_ne_iff n 0

/-- Warning steps of the status decoder do not change admissibility. -/
theorem fst_warnStep (c : Prop) [Decidable c] (x : Bool × List LogEntry) (l : List LogEntry) :
    (if c then (x.1, x.2 ++ l) else x).1 = x.1 := by
  split <;> rfl

/-- Dropping an appended prefix gives back the remainder. -/
theorem trimLeft_append (p s : String) : trimLeft (p ++ s) p = s := by
  unfold trimLeft
  rw [String.data_append, if_pos]
  · rw [List.drop_left]
  · rw [List.isPrefixOf_iff_prefix]
    exact List.prefix_append _ _

/-- A collection touches no key other than its own device. -/
theorem readSMARTctl_frame (device : Device) (oc : ExecResult) (now : Nat) (cache : Cache)
    (d2 : Device) (h : d2 ≠ device) : (readSMARTctl device oc now cache).1 d2 = cache d2 := by
  simp only [readSMARTctl]
  split
  · simp [storeCache, h]
  · rfl

/-- Folding collections over a list not containing a device leaves that
device's entry alone. -/
theorem collectAll_frame (outcomes : Device → ExecResult) (now : Nat) (ds : List Device)
    (cache : Cache) (d : Device) (h : d ∉ ds) : collectAll outcomes now ds cache d = cache d := by
  induction ds generalizing cache with
  | nil => rfl
  | cons a t ih =>
    simp only [List.mem_cons, not_or] at h
    rw [collectAll, ih _ h.2, readSMARTctl_frame _ _ _ _ _ h.1]

/-- Occurrence count in a filtered duplicate-free list. -/
theorem count_filter_nodup (p : Device → Bool) (d : Device) :
    ∀ l : List Device, l.Nodup →
      (l.filter p).count d = if d ∈ l ∧ p d then 1 else 0 := by
  intro l
  induction l with
  | nil => intro _; simp
  | cons a t ih =>
    intro hnd
    rw [List.nodup_cons] at hnd
    by_cases hd : d = a
    · subst hd
      have h0 : List.count d (List.filter p t) = 0 :=
        List.count_eq_zero_of_not_mem (fun hm => hnd.1 (List.mem_of_mem_filter hm))
      by_cases hp : p d
      · rw [List.filter_cons_of_pos hp, List.count_cons_self, h0]
        simp [hp]
      · rw [List.filter_cons_of_neg hp, h0]
        simp [hp]
    · by_cases hp : p a
      · rw [List.filter_cons_of_pos hp, List.count_cons_of_ne hd, ih hnd.2]
        simp [List.mem_cons, hd]
      · rw [List.filter_cons_of_neg hp, ih hnd.2]
        simp [List.mem_cons, hd]

/-- The message scan returns at the first error-severity entry. -/
theorem scanMessages_eq_find (msgs : List Json) :
    scanMessages msgs =
      match msgs.find? (fun mm => jstring (getPath mm ["severity"]) == "error") with
      | some m => (false, [(.error, jstring (getPath m ["string"]))])
      | none => (true, []) := by
  induction msgs with
  | nil => rfl
  | cons m rest ih =>
    cases h : (jstring (getPath m ["severity"]) == "error") with
    | true => simp [scanMessages, h, List.find?_cons_of_pos _ h]
    | false =>
      have hfind : List.find? (fun mm => jstring (getPath mm ["severity"]) == "error") (m :: rest)
          = List.find? (fun mm => jstring (getPath mm ["severity"]) == "error") rest :=
        List.find?_cons_of_neg rest (by simp [h])
      simp only [scanMessages, h, Bool.false_eq_true, if_false, hfind, ih]

/-- Shared example device. -/
def exampleDevice : Device := { Name := "/dev/sda", Typ := "ata" }

/-- Shared example cache holding one good entry for the example device,
collected at time 5. -/
def exampleCache : Cache :=
  fun d => if d = exampleDevice then some { JSON := Json.arr [], LastCollect := 5 } else none

/-- A captured output whose message list holds an error-severity entry. -/
def errorMsgText : String :=
  "\x7b\"smartctl\":\x7b\"messages\":[\x7b\"severity\":\"error\",\"string\":\"boom\"\x7d]\x7d\x7d"

/-- C1, counterexample: a collect call whose process launch fails does
not leave the cache unchanged — with an existing entry for the device,
the launch-failure collection replaces it by the empty document. -/
theorem C1_counterexample :
    (readSMARTctl exampleDevice .launchError 10 exampleCache).1 exampleDevice
      ≠ exampleCache exampleDevice := by
  have h1 : (readSMARTctl exampleDevice .launchError 10 exampleCache).1 exampleDevice
      = some { JSON := Json.obj [], LastCollect := 10 } := rfl
  have h2 : exampleCache exampleDevice = some { JSON := Json.arr [], LastCollect := 5 } := rfl
  rw [h1, h2]
  simp

/-- C1, amended: when the launch fails the warning is logged and the
captured output is empty; the empty output parses to the empty document,
whose status code is zero and whose message list is absent, so the
result is admissible and the collect call overwrites the device's cache
entry with the empty document at the current time. -/
theorem C1_amended (device : Device) (now : Nat) (cache : Cache) :
    (readSMARTctl device .launchError now cache).1 =
      storeCache cache device { JSON := Json.obj [], LastCollect := now }
    ∧ (LogLevel.warn, "S.M.A.R.T. output reading") ∈ (readSMARTctl device .launchError now cache).2 := by
  constructor
  · rfl
  · have h : (readSMARTctl device .launchError now cache).2 =
        [(.debug, "Calling smartctl with args"), (.warn, "S.M.A.R.T. output reading"),
         (.debug, "Collected S.M.A.R.T. json data")] := rfl
    rw [h]
    simp

set_option maxRecDepth 8192 in
/-- C2: for every 8-bit status code the decoder is inadmissible exactly
when bit 0 or bit 1 is set; when neither is set the result is admissible
and everything logged is a warning; the zero code is admissible. -/
theorem C2_eight_bit_codes (c : Nat) (hc : c < 256) :
    ((resultCodeIsOk (c : Int)).1 = false ↔ (c.testBit 0 = true ∨ c.testBit 1 = true))
    ∧ (¬ (c.testBit 0 = true ∨ c.testBit 1 = true) →
        (resultCodeIsOk (c : Int)).1 = true
        ∧ ∀ e ∈ (resultCodeIsOk (c : Int)).2, e.1 = LogLevel.warn)
    ∧ (resultCodeIsOk ((0 : Nat) : Int)).1 = true := by
  have H : ∀ c2 : Nat, c2 < 256 →
      (((resultCodeIsOk (c2 : Int)).1 = false ↔ (c2.testBit 0 = true ∨ c2.testBit 1 = true))
      ∧ (¬ (c2.testBit 0 = true ∨ c2.testBit 1 = true) →
          (resultCodeIsOk (c2 : Int)).1 = true
          ∧ ∀ e ∈ (resultCodeIsOk (c2 : Int)).2, e.1 = LogLevel.warn)
      ∧ (resultCodeIsOk ((0 : Nat) : Int)).1 = true) := by decide
  exact H c hc

/-- C2 witness: status code 6 (bits 1 and 2) is inadmissible. -/
theorem C2_witness : (resultCodeIsOk ((6 : Nat) : Int)).1 = false :=
  (C2_eight_bit_codes 6 (by decide)).1.mpr (Or.inr (by decide))

/-- C9: in normal mode a read for a device with no cache entry warns and
returns the empty (zero) document instead of failing. -/
theorem C9_unknown_device (fakeDoc : Device → Json) (cache : Cache) (device : Device)
    (habs : cache device = none) :
    readData false fakeDoc cache device = (Json.null, [(.warn, "device not found")]) := by
  simp [readData, habs]

/-- C9 witness: concrete empty cache. -/
theorem C9_witness :
    readData false (fun _ => Json.null) (fun _ => none) exampleDevice
      = (Json.null, [(.warn, "device not found")]) :=
  C9_unknown_device (fun _ => Json.null) (fun _ => none) exampleDevice rfl

/-- C10: the status decoder is fully characterized: inadmissible exactly
when the code is strictly positive with bit 0 or bit 1 set; every
non-positive code (negative ones included) and every positive code whose
set bits all sit at position 8 or above is admissible with no condition
logged at all. -/
theorem C10_decoder_characterization (code : Int) :
    ((resultCodeIsOk code).1 = false ↔
      (code > 0 ∧ (code.toNat.testBit 0 = true ∨ code.toNat.testBit 1 = true)))
    ∧ (code ≤ 0 → resultCodeIsOk code = (true, []))
    ∧ (code > 0 → (∀ k, k < 8 → code.toNat.testBit k = false) →
        resultCodeIsOk code = (true, [])) := by
  by_cases hpos : code > 0
  · have hb0 := and_one_ne_iff code.toNat
    have hb1 := and_shl_ne_iff code.toNat 1
    refine ⟨?_, ?_, ?_⟩
    · simp only [resultCodeIsOk, if_pos hpos]
      rw [fst_warnStep, fst_warnStep, fst_warnStep, fst_warnStep, fst_warnStep, fst_warnStep]
      by_cases h1 : code.toNat &&& (1 <<< 1) ≠ 0
      · rw [if_pos h1]
        exact iff_of_true rfl ⟨hpos, Or.inr (hb1.mp h1)⟩
      · by_cases h0 : code.toNat &&& 1 ≠ 0
        · rw [if_neg h1, if_pos h0]
          exact iff_of_true rfl ⟨hpos, Or.inl (hb0.mp h0)⟩
        · have e0 : code.toNat.testBit 0 = false := by
            cases hh : code.toNat.testBit 0
            · rfl
            · exact absurd (hb0.mpr hh) h0
          have e1 : code.toNat.testBit 1 = false := by
            cases hh : code.toNat.testBit 1
            · rfl
            · exact absurd (hb1.mpr hh) h1
          rw [if_neg h1, if_neg h0]
          exact iff_of_false (by simp) (by simp [e0, e1])
    · intro hle
      exact absurd hpos (not_lt.mpr hle)
    · intro _ hbits
      have hc : ∀ k, k < 8 → ¬(code.toNat &&& (1 <<< k) ≠ 0) := by
        intro k hk hne
        have := (and_shl_ne_iff code.toNat k).mp hne
        rw [hbits k hk] at this
        exact Bool.false_ne_true this
      have hc0 : ¬(code.toNat &&& 1 ≠ 0) := by
        intro hne
        have := (and_one_ne_iff code.toNat).mp hne
        rw [hbits 0 (by omega)] at this
        exact Bool.false_ne_true this
      simp only [resultCodeIsOk, if_pos hpos]
      rw [if_neg (hc 7 (by omega)), if_neg (hc 6 (by omega)), if_neg (hc 5 (by omega)),
        if_neg (hc 4 (by omega)), if_neg (hc 3 (by omega)), if_neg (hc 2 (by omega)),
        if_neg (hc 1 (by omega)), if_neg hc0]
  · have hval : resultCodeIsOk code = (true, []) := by
      simp only [resultCodeIsOk, if_neg hpos]
    refine ⟨?_, fun _ => hval, fun hgt => absurd hgt hpos⟩
    rw [hval]
    simp [hpos]

/-- C10 witness: code 256 (only bit 8 set) is admissible and logs
nothing. -/
theorem C10_witness : resultCodeIsOk 256 = (true, []) :=
  (C10_decoder_characterization 256).2.2 (by decide) (by decide)

/-- C4: a collection that fails admission (inadmissible status code or
error-severity message in the parsed output) leaves the whole cache, and
in particular the device's existing entry with its data and timestamp,
unchanged. -/
theorem C4_inadmissible_keeps_entry (device : Device) (oc : ExecResult) (now : Nat)
    (cache : Cache) (d0 : Json) (t0 : Nat)
    (hprev : cache device = some { JSON := d0, LastCollect := t0 })
    (hfail :
      (resultCodeIsOk (jint (getPath (parseJSON (trimLeft oc.stdout smartctlArtifact))
        ["smartctl", "exit_status"]))).1 = false
      ∨ (jsonIsOk (parseJSON (trimLeft oc.stdout smartctlArtifact))).1 = false) :
    (readSMARTctl device oc now cache).1 = cache
    ∧ (readSMARTctl device oc now cache).1 device = some { JSON := d0, LastCollect := t0 } := by
  have key : (readSMARTctl device oc now cache).1 = cache := by
    simp only [readSMARTctl]
    rcases hfail with h | h
    · rw [h]
      simp
    · rw [h]
      simp
  exact ⟨key, by rw [key]; exact hprev⟩

/-- C4 witness: a captured output carrying an error-severity message
leaves the seeded entry (data and timestamp) in place. -/
theorem C4_witness :
    (readSMARTctl exampleDevice (.success errorMsgText) 10 exampleCache).1 = exampleCache
    ∧ (readSMARTctl exampleDevice (.success errorMsgText) 10 exampleCache).1 exampleDevice
        = some { JSON := Json.arr [], LastCollect := 5 } :=
  C4_inadmissible_keeps_entry exampleDevice (.success errorMsgText) 10 exampleCache
    (Json.arr []) 5 rfl (Or.inr (by decide))

/-- C6: the device scan treats exit status 2 as success and parses the
partial output; any other non-zero exit status, and a launch failure,
warn and yield the empty (zero) result, never a failure. -/
theorem C6_scan_exit_codes (out : String) (code : Int) :
    readSMARTctlDevices (.exitError 2 out) = (parseJSON out, [(.debug, "Exit Status")])
    ∧ (code ≠ 2 → readSMARTctlDevices (.exitError code out)
        = (Json.null, [(.debug, "Exit Status"), (.warn, "S.M.A.R.T. output reading error")]))
    ∧ readSMARTctlDevices .launchError = (Json.null, [(.warn, "S.M.A.R.T. output reading error")]) := by
  refine ⟨by simp [readSMARTctlDevices], ?_, rfl⟩
  intro h
  simp [readSMARTctlDevices, h]

/-- C6 witness: the spec scenario, exit status 2 with the partial
document, yields that parsed document and not an empty result; exit
status 1 yields the empty result. -/
theorem C6_witness :
    readSMARTctlDevices (.exitError 2 "\x7b\"devices\":[]\x7d")
      = (parseJSON "\x7b\"devices\":[]\x7d", [(.debug, "Exit Status")])
    ∧ readSMARTctlDevices (.exitError 1 "\x7b\"devices\":[]\x7d")
      = (Json.null, [(.debug, "Exit Status"), (.warn, "S.M.A.R.T. output reading error")]) :=
  ⟨(C6_scan_exit_codes "\x7b\"devices\":[]\x7d" 1).1,
    (C6_scan_exit_codes "\x7b\"devices\":[]\x7d" 1).2.1 (by decide)⟩

/-- C5: outside fake mode the refresh cycle collects exactly the stale
devices (absent entry, or now strictly past collection time plus
interval): the returned cache is the join of the scheduled collections;
a non-stale device is never scheduled and its entry is untouched; in a
duplicate-free device list every stale listed device is scheduled
exactly once and every other device zero times. -/
theorem C5_refresh_exactly_stale (interval now : Nat) (outcomes : Device → ExecResult)
    (devices : List Device) (cache : Cache) :
    refreshAllDevices false interval now outcomes devices cache
      = collectAll outcomes now (devices.filter (fun d => isStale cache interval now d)) cache
    ∧ (∀ d ∈ devices, isStale cache interval now d = false →
        d ∉ devices.filter (fun d2 => isStale cache interval now d2)
        ∧ refreshAllDevices false interval now outcomes devices cache d = cache d)
    ∧ (devices.Nodup → ∀ d : Device,
        (devices.filter (fun d2 => isStale cache interval now d2)).count d
          = if d ∈ devices ∧ isStale cache interval now d then 1 else 0) := by
  refine ⟨rfl, ?_, ?_⟩
  · intro d _ hstale
    have hnotmem : d ∉ devices.filter (fun d2 => isStale cache interval now d2) := by
      intro hm
      rw [List.mem_filter, hstale] at hm
      exact Bool.false_ne_true hm.2
    refine ⟨hnotmem, ?_⟩
    have hred : refreshAllDevices false interval now outcomes devices cache
        = collectAll outcomes now (devices.filter (fun d2 => isStale cache interval now d2)) cache := rfl
    rw [hred]
    exact collectAll_frame _ _ _ _ _ hnotmem
  · intro hnd d
    exact count_filter_nodup _ d devices hnd

/-- C5 witness: two devices, the example one fresh at time 10 with
interval 5 and a second one absent from the cache (stale); only the
stale one is scheduled and the fresh entry is untouched. -/
theorem C5_witness :
    ([exampleDevice, { Name := "/dev/sdb", Typ := "ata" }].filter
        (fun d2 => isStale exampleCache 5 10 d2)).count exampleDevice = 0
    ∧ ([exampleDevice, { Name := "/dev/sdb", Typ := "ata" }].filter
        (fun d2 => isStale exampleCache 5 10 d2)).count { Name := "/dev/sdb", Typ := "ata" } = 1
    ∧ refreshAllDevices false 5 10 (fun _ => ExecResult.launchError)
        [exampleDevice, { Name := "/dev/sdb", Typ := "ata" }] exampleCache exampleDevice
      = exampleCache exampleDevice := by
  refine ⟨?_, ?_, ?_⟩
  · rw [(C5_refresh_exactly_stale 5 10 (fun _ => ExecResult.launchError)
      [exampleDevice, { Name := "/dev/sdb", Typ := "ata" }] exampleCache).2.2 (by decide)
      exampleDevice]
    decide
  · rw [(C5_refresh_exactly_stale 5 10 (fun _ => ExecResult.launchError)
      [exampleDevice, { Name := "/dev/sdb", Typ := "ata" }] exampleCache).2.2 (by decide)
      { Name := "/dev/sdb", Typ := "ata" }]
    decide
  · exact (((C5_refresh_exactly_stale 5 10 (fun _ => ExecResult.launchError)
      [exampleDevice, { Name := "/dev/sdb", Typ := "ata" }] exampleCache).2.1
      exampleDevice (by decide) (by decide))).2

/-- C7: prefixing a valid document with the known textual artifact and
then applying the collector's strip-then-parse step yields exactly that
document; without the stripping the combined text would not even be
valid (and would thus parse as the empty document). -/
theorem C7_artifact_stripped (s : String) (hv : gjsonValid s = true) :
    parseJSON (trimLeft (smartctlArtifact ++ s) smartctlArtifact) = gjsonParse s
    ∧ parseJSON (trimLeft (smartctlArtifact ++ s) smartctlArtifact) = parseJSON s
    ∧ gjsonValid (smartctlArtifact ++ s) = false := by
  have ht := trimLeft_append smartctlArtifact s
  have hp : parseJSON s = gjsonParse s := by simp [parseJSON, hv]
  refine ⟨by rw [ht, hp], by rw [ht], ?_⟩
  rfl

/-- C7 witness: concrete valid document behind the artifact. -/
theorem C7_witness :
    parseJSON (trimLeft (smartctlArtifact ++ "\x7b\"devices\":[]\x7d") smartctlArtifact)
      = gjsonParse "\x7b\"devices\":[]\x7d"
    ∧ gjsonValid (smartctlArtifact ++ "\x7b\"devices\":[]\x7d") = false :=
  ⟨(C7_artifact_stripped "\x7b\"devices\":[]\x7d" (by decide)).1,
    (C7_artifact_stripped "\x7b\"devices\":[]\x7d" (by decide)).2.2⟩

/-- C3: when the parsed result's message list holds an entry of severity
error, the result is inadmissible whatever the status code — the cache
is not written — and that entry's text is logged at error level; when
the message list is absent, the message check passes and admission is
decided by the status code alone. -/
theorem C3_error_severity_message (device : Device) (oc : ExecResult) (now : Nat) (cache : Cache) :
    (∀ msgs m,
      getPath (parseJSON (trimLeft oc.stdout smartctlArtifact)) ["smartctl", "messages"]
        = some msgs →
      (jarrayOf (some msgs)).find? (fun mm => jstring (getPath mm ["severity"]) == "error")
        = some m →
      (jsonIsOk (parseJSON (trimLeft oc.stdout smartctlArtifact))).1 = false
      ∧ (jsonIsOk (parseJSON (trimLeft oc.stdout smartctlArtifact))).2
          = [(.error, jstring (getPath m ["string"]))]
      ∧ (readSMARTctl device oc now cache).1 = cache)
    ∧ (getPath (parseJSON (trimLeft oc.stdout smartctlArtifact)) ["smartctl", "messages"] = none →
      (jsonIsOk (parseJSON (trimLeft oc.stdout smartctlArtifact))).1 = true
      ∧ (readSMARTctl device oc now cache).1 =
          (if (resultCodeIsOk (jint (getPath (parseJSON (trimLeft oc.stdout smartctlArtifact))
              ["smartctl", "exit_status"]))).1
           then storeCache cache device
                  { JSON := parseJSON (trimLeft oc.stdout smartctlArtifact), LastCollect := now }
           else cache)) := by
  constructor
  · intro msgs m hpath hfind
    have hj : jsonIsOk (parseJSON (trimLeft oc.stdout smartctlArtifact))
        = (false, [(.error, jstring (getPath m ["string"]))]) := by
      unfold jsonIsOk
      rw [hpath]
      show scanMessages (jarrayOf (some msgs)) = _
      rw [scanMessages_eq_find, hfind]
    refine ⟨by rw [hj], by rw [hj], ?_⟩
    simp only [readSMARTctl, hj]
    simp
  · intro hnone
    have hj : jsonIsOk (parseJSON (trimLeft oc.stdout smartctlArtifact)) = (true, []) := by
      unfold jsonIsOk
      rw [hnone]
    refine ⟨by rw [hj], ?_⟩
    by_cases hrc : (resultCodeIsOk (jint (getPath (parseJSON (trimLeft oc.stdout smartctlArtifact))
        ["smartctl", "exit_status"]))).1 = true
    · simp [readSMARTctl, hj, hrc]
    · rw [Bool.not_eq_true] at hrc
      simp [readSMARTctl, hj, hrc]

/-- The error-severity message entry as it parses from the example
output text. -/
def exampleErrMsg : Json :=
  Json.obj [("severity".data, Json.str "error".data), ("string".data, Json.str "boom".data)]

/-- C3 witness: the example output with an error-severity message is
inadmissible even though its status code is absent (zero), and the
seeded cache is unchanged. -/
theorem C3_witness :
    (jsonIsOk (parseJSON (trimLeft (ExecResult.success errorMsgText).stdout smartctlArtifact))).1
      = false
    ∧ (readSMARTctl exampleDevice (.success errorMsgText) 10 exampleCache).1 = exampleCache :=
  have H := (C3_error_severity_message exampleDevice (.success errorMsgText) 10 exampleCache).1
    (Json.arr [exampleErrMsg]) exampleErrMsg rfl rfl
  ⟨H.1, H.2.2⟩

/- Well-formed documents: exactly the trees the parser can produce (raw
string bodies relex to themselves; number lexemes relex to themselves
with nothing left over). -/
mutual
def okJson : Json → Bool
  | .null => true
  | .bool _ => true
  | .num l => numOk l
  | .str b => okBody b
  | .arr xs => okList xs
  | .obj kvs => okKVs kvs
def okList : List Json → Bool
  | [] => true
  | x :: xs => okJson x && okList xs
def okKVs : List (List Char × Json) → Bool
  | [] => true
  | kv :: kvs => (okBody kv.1 && okJson kv.2) && okKVs kvs
end

/-- Structural induction for documents with member-wise hypotheses for
arrays and objects. -/
theorem json_ind (P : Json → Prop) (h1 : P .null) (h2 : ∀ b, P (.bool b))
    (h3 : ∀ l, P (.num l)) (h4 : ∀ b, P (.str b))
    (h5 : ∀ xs, (∀ x ∈ xs, P x) → P (.arr xs))
    (h6 : ∀ kvs, (∀ kv ∈ kvs, P kv.2) → P (.obj kvs)) : ∀ j, P j := by
  have H : ∀ n (j : Json), sizeOf j ≤ n → P j := by
    intro n
    induction n with
    | zero =>
      intro j hj
      cases j <;> simp at hj
    | succ n ih =>
      intro j hj
      cases j with
      | null => exact h1
      | bool b => exact h2 b
      | num l => exact h3 l
      | str b => exact h4 b
      | arr xs =>
        refine h5 xs (fun x hx => ih x ?_)
        have hlt := List.sizeOf_lt_of_mem hx
        have hs : sizeOf (Json.arr xs) = 1 + sizeOf xs := by simp
        omega
      | obj kvs =>
        refine h6 kvs (fun kv hkv => ih kv.2 ?_)
        have hlt := List.sizeOf_lt_of_mem hkv
        have hkv2 : sizeOf kv.2 < sizeOf kv := by
          cases kv with
          | mk a b => simp
        have hs : sizeOf (Json.obj kvs) = 1 + sizeOf kvs := by simp
        omega
  exact fun j => H (sizeOf j) j (le_refl _)

/-- Member-wise reading of okList. -/
theorem okList_iff (xs : List Json) : okList xs = true ↔ ∀ x ∈ xs, okJson x = true := by
  induction xs with
  | nil => simp [okList]
  | cons x t ih => simp [okList, Bool.and_eq_true, ih]

/-- Member-wise reading of okKVs. -/
theorem okKVs_iff (kvs : List (List Char × Json)) :
    okKVs kvs = true ↔ ∀ kv ∈ kvs, okBody kv.1 = true ∧ okJson kv.2 = true := by
  induction kvs with
  | nil => simp [okKVs]
  | cons kv t ih =>
    rw [okKVs, Bool.and_eq_true, Bool.and_eq_true, ih]
    constructor
    · rintro ⟨⟨hb, hj⟩, ht⟩ kv2 hm
      rcases List.mem_cons.mp hm with h | h
      · subst h
        exact ⟨hb, hj⟩
      · exact ht kv2 h
    · intro h
      refine ⟨⟨(h kv (List.mem_cons_self kv t)).1, (h kv (List.mem_cons_self kv t)).2⟩, ?_⟩
      exact fun kv2 hm => h kv2 (List.mem_cons_of_mem kv hm)

/-- A character unequal to every non-digit is ruled out by a digit test. -/
theorem ne_of_isDigit (c d : Char) (h : c.isDigit = true) (hd : d.isDigit = false) : ¬c = d :=
  fun e => by rw [e, hd] at h; exact Bool.false_ne_true h

/-- Digits are not whitespace. -/
theorem isWs_false_of_digit (c : Char) (h : c.isDigit = true) : isWs c = false := by
  have h1 := ne_of_isDigit c ' ' h (by decide)
  have h2 := ne_of_isDigit c '\t' h (by decide)
  have h3 := ne_of_isDigit c '\n' h (by decide)
  have h4 := ne_of_isDigit c '\r' h (by decide)
  simp [isWs, h1, h2, h3, h4]

/-- Soundness of the string-body lexer: a successful lex splits the
input at the closing quote and the body is well formed. -/
theorem pstr_split : ∀ (cs : List Char) b r, pstr cs = some (b, r) →
    cs = b ++ '"' :: r ∧ okBody b = true := by
  intro cs
  induction cs using pstr.induct
  case case5 h1 h2 h3 h4 t3 hhex body rest hx hq ih =>
    intro b r h
    rw [pstr.eq_def] at h
    obtain ⟨hsp, hok⟩ := ih _ _ hx
    simp_all
    try (obtain ⟨hb, hr⟩ := h; subst hb; subst hr)
    try rw [okBody.eq_def]
    try simp_all [List.cons_append]
  case case9 c t hcn hesc body rest hx hq ih =>
    intro b r h
    rw [pstr.eq_def] at h
    obtain ⟨hsp, hok⟩ := ih _ _ hx
    simp_all
    try (obtain ⟨hb, hr⟩ := h; subst hb; subst hr)
    try rw [okBody.eq_def]
    try simp_all [List.cons_append]
  case case13 c t hq1 hq2 hlt body rest hx ih =>
    intro b r h
    rw [pstr.eq_def] at h
    obtain ⟨hsp, hok⟩ := ih _ _ hx
    simp_all
    try (obtain ⟨hb, hr⟩ := h; subst hb; subst hr)
    try rw [okBody.eq_def]
    try simp_all [List.cons_append]
  all_goals intro b r h
  all_goals rw [pstr.eq_def] at h
  all_goals simp_all
  all_goals try (obtain ⟨hb, hr⟩ := h; subst hb; subst hr)
  all_goals try (rw [okBody.eq_def])
  all_goals simp_all [List.cons_append]

/-- Completeness of the string-body lexer: a well-formed body followed
by a quote lexes back to exactly that body. -/
theorem pstr_replay : ∀ b, okBody b = true → ∀ r, pstr (b ++ '"' :: r) = some (b, r) := by
  intro b
  induction b using okBody.induct
  all_goals intro hok r
  all_goals rw [okBody.eq_def] at hok
  all_goals try simp_all [List.cons_append]
  all_goals try rw [pstr.eq_def]
  all_goals try simp_all [List.cons_append]

/-- Shape of an accepted integer part. -/
def intOk (ip : List Char) : Prop :=
  ip = ['0'] ∨ ∃ c a2, ip = c :: a2 ∧ c.isDigit = true ∧ ¬c = '0' ∧ a2.all Char.isDigit = true

/-- Shape of an accepted fraction part. -/
def fracOk (fp : List Char) : Prop :=
  fp = [] ∨ ∃ d a2, fp = '.' :: d :: a2 ∧ d.isDigit = true ∧ a2.all Char.isDigit = true

/-- Shape of an accepted exponent part. -/
def expOk (ep : List Char) : Prop :=
  ep = []
  ∨ (∃ e s d a2, ep = e :: s :: d :: a2 ∧ (e = 'e' ∨ e = 'E') ∧ (s = '+' ∨ s = '-')
      ∧ d.isDigit = true ∧ a2.all Char.isDigit = true)
  ∨ (∃ e d a2, ep = e :: d :: a2 ∧ (e = 'e' ∨ e = 'E') ∧ d.isDigit = true
      ∧ a2.all Char.isDigit = true)

/-- The remainder cannot continue a digit run. -/
def noDigitHead (x : List Char) : Prop := ∀ c t, x = c :: t → c.isDigit = false

/-- The remainder cannot open a fraction part. -/
def noFracHead (x : List Char) : Prop := ∀ c t, x = c :: t → c.isDigit = false ∧ ¬c = '.'

/-- The remainder cannot continue a number lexeme in any way. -/
def noNumHead (x : List Char) : Prop :=
  ∀ c t, x = c :: t → c.isDigit = false ∧ ¬c = '.' ∧ ¬c = 'e' ∧ ¬c = 'E'

/-- Soundness of the digit-run splitter. -/
theorem spanDigits_split : ∀ (cs a b2 : List Char), spanDigits cs = (a, b2) →
    cs = a ++ b2 ∧ a.all Char.isDigit = true ∧ noDigitHead b2 := by
  intro cs
  induction cs with
  | nil =>
    intro a b2 h
    simp [spanDigits] at h
    obtain ⟨h1, h2⟩ := h
    subst h1; subst h2
    exact ⟨rfl, rfl, fun c t ht => by cases ht⟩
  | cons c t ih =>
    intro a b2 h
    simp only [spanDigits] at h
    by_cases hd : c.isDigit
    · rw [if_pos hd] at h
      cases hsp : spanDigits t with
      | mk a2 b3 =>
        rw [hsp] at h
        obtain ⟨e1, e2, e3⟩ := ih a2 b3 hsp
        simp only [Prod.mk.injEq] at h
        obtain ⟨ha, hb⟩ := h
        subst ha; subst hb
        refine ⟨by rw [e1]; simp, by simp [hd, e2], e3⟩
    · rw [if_neg hd] at h
      simp only [Prod.mk.injEq] at h
      obtain ⟨ha, hb⟩ := h
      subst ha; subst hb
      refine ⟨rfl, rfl, fun c2 t2 ht => ?_⟩
      cases ht
      cases hdd : c.isDigit with
      | false => rfl
      | true => exact absurd hdd hd

/-- Completeness of the digit-run splitter. -/
theorem spanDigits_replay : ∀ (a : List Char), a.all Char.isDigit = true →
    ∀ x, noDigitHead x → spanDigits (a ++ x) = (a, x) := by
  intro a
  induction a with
  | nil =>
    intro _ x hx
    cases x with
    | nil => rfl
    | cons c t =>
      have := hx c t rfl
      simp [spanDigits, this]
  | cons c a2 ih =>
    intro ha x hx
    simp only [List.all_cons, Bool.and_eq_true] at ha
    simp [spanDigits, ha.1, ih ha.2 x hx]

/-- Soundness of the integer-part lexer. -/
theorem pint_split : ∀ (cs ip r : List Char), pint cs = some (ip, r) →
    cs = ip ++ r ∧ intOk ip := by
  intro cs ip r h
  cases cs with
  | nil => simp [pint] at h
  | cons c t =>
    simp only [pint] at h
    by_cases h0 : c = '0'
    · rw [if_pos h0] at h
      simp only [Option.some.injEq, Prod.mk.injEq] at h
      obtain ⟨h1, h2⟩ := h
      subst h0; subst h1; subst h2
      exact ⟨by simp, Or.inl rfl⟩
    · rw [if_neg h0] at h
      by_cases hd : c.isDigit
      · rw [if_pos hd] at h
        cases hsp : spanDigits t with
        | mk a b2 =>
          rw [hsp] at h
          simp only [Option.some.injEq, Prod.mk.injEq] at h
          obtain ⟨h1, h2⟩ := h
          subst h1; subst h2
          obtain ⟨e1, e2, _⟩ := spanDigits_split t a b2 hsp
          exact ⟨by rw [e1]; simp, Or.inr ⟨c, a, rfl, hd, h0, e2⟩⟩
      · rw [if_neg hd] at h
        exact absurd h (by simp)

/-- Completeness of the integer-part lexer. -/
theorem pint_replay : ∀ (ip : List Char), intOk ip → ∀ x, noDigitHead x →
    pint (ip ++ x) = some (ip, x) := by
  intro ip hip x hx
  rcases hip with h | ⟨c, a2, hf, hd, h0, ha⟩
  · subst h
    simp [pint]
  · subst hf
    have hsd := spanDigits_replay a2 ha x hx
    simp [pint, h0, hd, hsd]

/-- Soundness of the fraction-part lexer. -/
theorem pfrac_split : ∀ (cs fp r : List Char), pfrac cs = some (fp, r) →
    cs = fp ++ r ∧ fracOk fp := by
  intro cs fp r h
  cases cs with
  | nil =>
    simp [pfrac] at h
    obtain ⟨h1, h2⟩ := h
    subst h1; subst h2
    exact ⟨rfl, Or.inl rfl⟩
  | cons c t =>
    simp only [pfrac] at h
    by_cases hdot : c = '.'
    · rw [if_pos hdot] at h
      cases t with
      | nil => exact absurd h (by simp)
      | cons d t2 =>
        cases hsp : spanDigits t2 with
        | mk a b2 =>
          by_cases hd : d.isDigit
          · simp only [hsp] at h
            simp [hd] at h
            obtain ⟨h1, h2⟩ := h
            subst h1; subst h2; subst hdot
            obtain ⟨e1, e2, _⟩ := spanDigits_split t2 a b2 hsp
            exact ⟨by rw [e1]; simp, Or.inr ⟨d, a, rfl, hd, e2⟩⟩
          · simp [hd] at h
    · rw [if_neg hdot] at h
      simp only [Option.some.injEq, Prod.mk.injEq] at h
      obtain ⟨h1, h2⟩ := h
      subst h1; subst h2
      exact ⟨rfl, Or.inl rfl⟩

/-- Completeness of the fraction-part lexer. -/
theorem pfrac_replay : ∀ (fp : List Char), fracOk fp → ∀ x, noFracHead x →
    pfrac (fp ++ x) = some (fp, x) := by
  intro fp hfp x hx
  rcases hfp with h | ⟨d, a2, hf, hd, ha⟩
  · subst h
    cases x with
    | nil => rfl
    | cons c t =>
      obtain ⟨hcd, hcdot⟩ := hx c t rfl
      simp [pfrac, hcdot]
  · subst hf
    have hsd := spanDigits_replay a2 ha x (fun c t ht => (hx c t ht).1)
    simp [pfrac, hd, hsd]

/-- Soundness of the exponent-part lexer. -/
theorem pexp_split : ∀ (cs ep r : List Char), pexp cs = some (ep, r) →
    cs = ep ++ r ∧ expOk ep := by
  intro cs ep r h
  cases cs with
  | nil =>
    simp [pexp] at h
    obtain ⟨h1, h2⟩ := h
    subst h1; subst h2
    exact ⟨rfl, Or.inl rfl⟩
  | cons c t =>
    simp only [pexp] at h
    by_cases he : c = 'e' ∨ c = 'E'
    · have heb : (c = 'e' || c = 'E') = true := by
        rcases he with h2 | h2 <;> simp [h2]
      rw [if_pos (by exact heb)] at h
      cases t with
      | nil => exact absurd h (by simp)
      | cons s t2 =>
        by_cases hs : s = '+' ∨ s = '-'
        · have hsb : (s = '+' || s = '-') = true := by
            rcases hs with h2 | h2 <;> simp [h2]
          cases t2 with
          | nil => simp [hsb] at h
          | cons d t3 =>
            cases hsp : spanDigits t3 with
            | mk a b2 =>
              by_cases hd : d.isDigit
              · simp only [hsp] at h
                simp [hsb, hd] at h
                obtain ⟨h1, h2⟩ := h
                subst h1; subst h2
                obtain ⟨e1, e2, _⟩ := spanDigits_split t3 a b2 hsp
                exact ⟨by rw [e1]; simp, Or.inr (Or.inl ⟨c, s, d, a, rfl, he, hs, hd, e2⟩)⟩
              · simp [hsb, hd] at h
        · have hsb : (s = '+' || s = '-') = false := by
            simp only [not_or] at hs
            simp [hs.1, hs.2]
          cases hsp : spanDigits t2 with
          | mk a b2 =>
            by_cases hd : s.isDigit
            · simp only [hsp] at h
              simp [hsb, hd] at h
              obtain ⟨h1, h2⟩ := h
              subst h1; subst h2
              obtain ⟨e1, e2, _⟩ := spanDigits_split t2 a b2 hsp
              exact ⟨by rw [e1]; simp, Or.inr (Or.inr ⟨c, s, a, rfl, he, hd, e2⟩)⟩
            · simp [hsb, hd] at h
    · have heb : (c = 'e' || c = 'E') = false := by
        simp only [not_or] at he
        simp [he.1, he.2]
      rw [heb] at h
      simp only [Bool.false_eq_true, if_false] at h
      simp only [Option.some.injEq, Prod.mk.injEq] at h
      obtain ⟨h1, h2⟩ := h
      subst h1; subst h2
      exact ⟨rfl, Or.inl rfl⟩

/-- Completeness of the exponent-part lexer. -/
theorem pexp_replay : ∀ (ep : List Char), expOk ep → ∀ x, noNumHead x →
    pexp (ep ++ x) = some (ep, x) := by
  intro ep hep x hx
  rcases hep with h | ⟨e, s, d, a2, hf, he, hs, hd, ha⟩ | ⟨e, d, a2, hf, he, hd, ha⟩
  · subst h
    cases x with
    | nil => rfl
    | cons c t =>
      obtain ⟨hcd, hcdot, hce, hcE⟩ := hx c t rfl
      simp [pexp, hce, hcE]
  · subst hf
    have hnd : noDigitHead x := fun c t ht => (hx c t ht).1
    have hsd := spanDigits_replay a2 ha x hnd
    rcases he with he | he <;> rcases hs with hs | hs <;> subst he <;> subst hs <;>
      simp [pexp, hd, hsd]
  · subst hf
    have hnd : noDigitHead x := fun c t ht => (hx c t ht).1
    have hsd := spanDigits_replay a2 ha x hnd
    have hp : ¬d = '+' := ne_of_isDigit d '+' hd (by decide)
    have hm : ¬d = '-' := ne_of_isDigit d '-' hd (by decide)
    rcases he with he | he <;> subst he <;> simp [pexp, hd, hsd, hp, hm]

/-- Shape of a full number lexeme. -/
def numShape (lex : List Char) : Prop :=
  ∃ sgn ip fp ep, lex = sgn ++ (ip ++ fp ++ ep) ∧ (sgn = [] ∨ sgn = ['-'])
    ∧ intOk ip ∧ fracOk fp ∧ expOk ep

/-- Soundness of the unsigned number lexer. -/
theorem pnumCore_split : ∀ (cs lex r : List Char), pnumCore cs = some (lex, r) →
    cs = lex ++ r ∧ ∃ ip fp ep, lex = ip ++ fp ++ ep ∧ intOk ip ∧ fracOk fp ∧ expOk ep := by
  intro cs lex r h
  unfold pnumCore at h
  cases hint : pint cs with
  | none => rw [hint] at h; exact absurd h (by simp)
  | some v =>
    cases v with
    | mk ip r1 =>
      rw [hint] at h
      simp only [] at h
      cases hfr : pfrac r1 with
      | none => rw [hfr] at h; exact absurd h (by simp)
      | some v2 =>
        cases v2 with
        | mk fp r2 =>
          rw [hfr] at h
          simp only [] at h
          cases hex : pexp r2 with
          | none => rw [hex] at h; exact absurd h (by simp)
          | some v3 =>
            cases v3 with
            | mk ep r3 =>
              rw [hex] at h
              simp only [] at h
              simp only [Option.some.injEq, Prod.mk.injEq] at h
              obtain ⟨h1, h2⟩ := h
              subst h1; subst h2
              obtain ⟨ei, si⟩ := pint_split cs ip r1 hint
              obtain ⟨ef, sf⟩ := pfrac_split r1 fp r2 hfr
              obtain ⟨ee, se⟩ := pexp_split r2 ep r3 hex
              refine ⟨?_, ip, fp, ep, rfl, si, sf, se⟩
              rw [ei, ef, ee]
              simp

/-- Completeness of the unsigned number lexer. -/
theorem pnumCore_replay : ∀ (ip fp ep : List Char), intOk ip → fracOk fp → expOk ep →
    ∀ x, noNumHead x → pnumCore (ip ++ (fp ++ (ep ++ x))) = some (ip ++ fp ++ ep, x) := by
  intro ip fp ep hi hf he x hx
  have hdig : noDigitHead (fp ++ (ep ++ x)) := by
    intro c t ht
    rcases hf with h2 | ⟨d, a2, hfp, hd, _⟩
    · subst h2
      simp only [List.nil_append] at ht
      rcases he with h3 | ⟨e, s, d2, a3, hep, he2, _, _, _⟩ | ⟨e, d2, a3, hep, he2, _, _⟩
      · subst h3
        simp only [List.nil_append] at ht
        exact (hx c t ht).1
      · subst hep
        simp only [List.cons_append] at ht
        injection ht with h4 _
        subst h4
        rcases he2 with h5 | h5 <;> subst h5 <;> rfl
      · subst hep
        simp only [List.cons_append] at ht
        injection ht with h4 _
        subst h4
        rcases he2 with h5 | h5 <;> subst h5 <;> rfl
    · subst hfp
      simp only [List.cons_append] at ht
      injection ht with h4 _
      subst h4
      rfl
  have hfrac : noFracHead (ep ++ x) := by
    intro c t ht
    rcases he with h3 | ⟨e, s, d2, a3, hep, he2, _, _, _⟩ | ⟨e, d2, a3, hep, he2, _, _⟩
    · subst h3
      simp only [List.nil_append] at ht
      obtain ⟨hh1, hh2, _, _⟩ := hx c t ht
      exact ⟨hh1, hh2⟩
    · subst hep
      simp only [List.cons_append] at ht
      injection ht with h4 _
      subst h4
      rcases he2 with h5 | h5 <;> subst h5 <;> exact ⟨rfl, by decide⟩
    · subst hep
      simp only [List.cons_append] at ht
      injection ht with h4 _
      subst h4
      rcases he2 with h5 | h5 <;> subst h5 <;> exact ⟨rfl, by decide⟩
  have hexp : noNumHead x := hx
  unfold pnumCore
  rw [pint_replay ip hi _ hdig]
  simp only []
  rw [pfrac_replay fp hf _ hfrac]
  simp only []
  rw [pexp_replay ep he x hexp]

/-- Numbers never begin with a dash pattern mismatch: a non-dash head
goes through the unsigned lexer. -/
theorem pnum_not_dash : ∀ (c : Char) (t : List Char), ¬c = '-' →
    pnum (c :: t) = pnumCore (c :: t) := by
  intro c t h
  rw [pnum.eq_def]
  split
  · rename_i t2 heq
    injection heq with h1 _
    exact absurd h1 h
  · rfl

/-- Soundness of the signed number lexer. -/
theorem pnum_split : ∀ (cs lex r : List Char), pnum cs = some (lex, r) →
    cs = lex ++ r ∧ numShape lex := by
  intro cs lex r h
  rw [pnum.eq_def] at h
  split at h
  · rename_i t
    cases hc : pnumCore t with
    | none => rw [hc] at h; exact absurd h (by simp)
    | some v =>
      cases v with
      | mk lx r2 =>
        rw [hc] at h
        simp only [] at h
        simp only [Option.some.injEq, Prod.mk.injEq] at h
        obtain ⟨h1, h2⟩ := h
        subst h1; subst h2
        obtain ⟨e1, ip, fp, ep, e2, si, sf, se⟩ := pnumCore_split t lx r2 hc
        refine ⟨by rw [e1]; simp, ['-'], ip, fp, ep, by rw [e2]; simp, Or.inr rfl, si, sf, se⟩
  · obtain ⟨e1, ip, fp, ep, e2, si, sf, se⟩ := pnumCore_split cs lex r h
    exact ⟨e1, [], ip, fp, ep, by rw [e2]; simp, Or.inl rfl, si, sf, se⟩

/-- Completeness of the signed number lexer. -/
theorem pnum_replay : ∀ (lex : List Char), numShape lex → ∀ x, noNumHead x →
    pnum (lex ++ x) = some (lex, x) := by
  intro lex hs x hx
  obtain ⟨sgn, ip, fp, ep, hf, hsgn, hi, hfr, hex⟩ := hs
  subst hf
  have hcore := pnumCore_replay ip fp ep hi hfr hex x hx
  rcases hsgn with h | h
  · subst h
    simp only [List.nil_append, List.append_assoc] at hcore ⊢
    obtain ⟨c, t2, he2, hneg⟩ : ∃ c t2, ip ++ (fp ++ (ep ++ x)) = c :: t2 ∧ ¬c = '-' := by
      rcases hi with h2 | ⟨c, a2, hip, hd, _, _⟩
      · subst h2
        exact ⟨'0', fp ++ (ep ++ x), by simp, by decide⟩
      · subst hip
        exact ⟨c, a2 ++ (fp ++ (ep ++ x)), by simp, ne_of_isDigit c '-' hd (by decide)⟩
    rw [he2, pnum_not_dash c t2 hneg, ← he2]
    exact hcore
  · subst h
    simp only [List.cons_append, List.nil_append, List.append_assoc] at hcore ⊢
    rw [pnum.eq_def]
    simp only []
    rw [hcore]

/-- A well-formed number lexeme has the accepted shape. -/
theorem numShape_of_numOk : ∀ l, numOk l = true → numShape l := by
  intro l h
  rw [numOk, decide_eq_true_eq] at h
  exact (pnum_split l l [] (by rw [h])).2

/-- Replay for well-formed number lexemes. -/
theorem numOk_replay : ∀ l, numOk l = true → ∀ x, noNumHead x → pnum (l ++ x) = some (l, x) :=
  fun l h x hx => pnum_replay l (numShape_of_numOk l h) x hx

/-- A well-formed number lexeme starts with a dash or a digit. -/
theorem numOk_head : ∀ l, numOk l = true → ∃ c t, l = c :: t ∧ (c = '-' ∨ c.isDigit = true) := by
  intro l h
  obtain ⟨sgn, ip, fp, ep, hf, hsgn, hi, _, _⟩ := numShape_of_numOk l h
  subst hf
  rcases hsgn with h2 | h2 <;> subst h2
  · rcases hi with h3 | ⟨c, a2, hip, hd, _, _⟩
    · subst h3
      exact ⟨'0', fp ++ ep, by simp, Or.inr (by decide)⟩
    · subst hip
      exact ⟨c, a2 ++ fp ++ ep, by simp, Or.inr hd⟩
  · exact ⟨'-', ip ++ fp ++ ep, by simp, Or.inl rfl⟩

/-- Non-whitespace heads pass through the whitespace skipper. -/
theorem skipWs_cons (c : Char) (t : List Char) (h : isWs c = false) :
    skipWs (c :: t) = c :: t := by
  simp [skipWs, h]

/-- Parser soundness: every document the parser produces is well
formed (in any mode, given well-formed accumulators). -/
theorem pstep_ok : ∀ (fuel : Nat) (mode : PMode) (cs : List Char) (v : Json) (r : List Char),
    pstep fuel mode cs = some (v, r) →
    (match mode with
     | .val => okJson v = true
     | .arrTail acc => okList acc = true → okJson v = true
     | .objTail acc => okKVs acc = true → okJson v = true) := by
  intro fuel
  induction fuel with
  | zero =>
    intro mode cs v r h
    simp [pstep] at h
  | succ n ih =>
    intro mode cs v r h
    cases mode with
    | val =>
      simp only [pstep] at h
      cases hsw : skipWs cs with
      | nil => rw [hsw] at h; simp at h
      | cons c t =>
        rw [hsw] at h
        simp only [] at h
        split at h
        · cases hsw2 : skipWs t with
          | nil => rw [hsw2] at h; simp at h
          | cons c2 t2 =>
            rw [hsw2] at h
            simp only [] at h
            split at h
            · simp only [Option.some.injEq, Prod.mk.injEq] at h
              obtain ⟨h1, _⟩ := h
              subst h1
              simp [okJson, okKVs]
            · split at h
              · cases hps : pstr t2 with
                | none => rw [hps] at h; simp at h
                | some kv =>
                  cases kv with
                  | mk k r1 =>
                    rw [hps] at h
                    simp only [] at h
                    cases hpc : pcolon r1 with
                    | none => rw [hpc] at h; simp at h
                    | some r2 =>
                      rw [hpc] at h
                      simp only [] at h
                      cases hv : pstep n .val r2 with
                      | none => rw [hv] at h; simp at h
                      | some vr =>
                        cases vr with
                        | mk v1 r3 =>
                          rw [hv] at h
                          simp only [] at h
                          have hone : okKVs [(k, v1)] = true → okJson v = true := ih _ _ _ _ h
                          apply hone
                          have hkb := (pstr_split t2 k r1 hps).2
                          have hv1 : okJson v1 = true := ih _ _ _ _ hv
                          simp [okKVs, hkb, hv1]
              · simp at h
        · split at h
          · cases hsw2 : skipWs t with
            | nil => rw [hsw2] at h; simp at h
            | cons c2 t2 =>
              rw [hsw2] at h
              simp only [] at h
              split at h
              · simp only [Option.some.injEq, Prod.mk.injEq] at h
                obtain ⟨h1, _⟩ := h
                subst h1
                simp [okJson, okList]
              · cases hv : pstep n .val (c2 :: t2) with
                | none => rw [hv] at h; simp at h
                | some vr =>
                  cases vr with
                  | mk v1 r1 =>
                    rw [hv] at h
                    simp only [] at h
                    have hv1 : okJson v1 = true := ih _ _ _ _ hv
                    have hone : okList [v1] = true → okJson v = true := ih _ _ _ _ h
                    apply hone
                    simp [okList, hv1]
          · split at h
            · cases hps : pstr t with
              | none => rw [hps] at h; simp at h
              | some kv =>
                cases kv with
                | mk b r1 =>
                  rw [hps] at h
                  simp only [] at h
                  simp only [Option.some.injEq, Prod.mk.injEq] at h
                  obtain ⟨h1, _⟩ := h
                  subst h1
                  have hkb := (pstr_split t b r1 hps).2
                  simp [okJson, hkb]
            · split at h
              · cases hpn : pnum (c :: t) with
                | none => rw [hpn] at h; simp at h
                | some lr =>
                  cases lr with
                  | mk lex r1 =>
                    rw [hpn] at h
                    simp only [] at h
                    simp only [Option.some.injEq, Prod.mk.injEq] at h
                    obtain ⟨h1, _⟩ := h
                    subst h1
                    have hsh := (pnum_split _ _ _ hpn).2
                    have hrep : pnum (lex ++ []) = some (lex, []) :=
                      pnum_replay lex hsh [] (fun c2 t2 ht => by cases ht)
                    rw [List.append_nil] at hrep
                    simp [okJson, numOk, hrep]
              · split at h
                · split at h
                  · simp only [Option.some.injEq, Prod.mk.injEq] at h
                    obtain ⟨h1, _⟩ := h
                    subst h1
                    simp [okJson]
                  · simp at h
                · split at h
                  · split at h
                    · simp only [Option.some.injEq, Prod.mk.injEq] at h
                      obtain ⟨h1, _⟩ := h
                      subst h1
                      simp [okJson]
                    · simp at h
                  · split at h
                    · split at h
                      · simp only [Option.some.injEq, Prod.mk.injEq] at h
                        obtain ⟨h1, _⟩ := h
                        subst h1
                        simp [okJson]
                      · simp at h
                    · simp at h
    | arrTail acc =>
      simp only [pstep] at h
      cases hsw : skipWs cs with
      | nil => rw [hsw] at h; simp at h
      | cons c t =>
        rw [hsw] at h
        simp only [] at h
        split at h
        · cases hv : pstep n .val t with
          | none => rw [hv] at h; simp at h
          | some vr =>
            cases vr with
            | mk v1 r1 =>
              rw [hv] at h
              simp only [] at h
              intro hacc
              have hv1 : okJson v1 = true := ih _ _ _ _ hv
              have hone : okList (acc ++ [v1]) = true → okJson v = true := ih _ _ _ _ h
              apply hone
              rw [okList_iff]
              intro x hx
              rcases List.mem_append.mp hx with h2 | h2
              · exact (okList_iff acc).mp hacc x h2
              · rw [List.mem_singleton] at h2
                subst h2
                exact hv1
        · split at h
          · simp only [Option.some.injEq, Prod.mk.injEq] at h
            obtain ⟨h1, _⟩ := h
            subst h1
            intro hacc
            simp [okJson, hacc]
          · simp at h
    | objTail acc =>
      simp only [pstep] at h
      cases hsw : skipWs cs with
      | nil => rw [hsw] at h; simp at h
      | cons c t =>
        rw [hsw] at h
        simp only [] at h
        split at h
        · cases hsw2 : skipWs t with
          | nil => rw [hsw2] at h; simp at h
          | cons c2 t2 =>
            rw [hsw2] at h
            split at h
            · rename_i x t3 heq
              injection heq with hc2 ht3
              subst ht3
              cases hps : pstr t2 with
              | none => rw [hps] at h; simp at h
              | some kv =>
                cases kv with
                | mk k r1 =>
                  rw [hps] at h
                  simp only [] at h
                  cases hpc : pcolon r1 with
                  | none => rw [hpc] at h; simp at h
                  | some r2 =>
                    rw [hpc] at h
                    simp only [] at h
                    cases hv : pstep n .val r2 with
                    | none => rw [hv] at h; simp at h
                    | some vr =>
                      cases vr with
                      | mk v1 r3 =>
                        rw [hv] at h
                        simp only [] at h
                        intro hacc
                        have hv1 : okJson v1 = true := ih _ _ _ _ hv
                        have hkb := (pstr_split t2 k r1 hps).2
                        have hone : okKVs (acc ++ [(k, v1)]) = true → okJson v = true :=
                          ih _ _ _ _ h
                        apply hone
                        rw [okKVs_iff]
                        intro kv2 hkv2
                        rcases List.mem_append.mp hkv2 with h2 | h2
                        · exact (okKVs_iff acc).mp hacc kv2 h2
                        · rw [List.mem_singleton] at h2
                          subst h2
                          exact ⟨hkb, hv1⟩
            · simp at h
        · split at h
          · simp only [Option.some.injEq, Prod.mk.injEq] at h
            obtain ⟨h1, _⟩ := h
            subst h1
            intro hacc
            simp [okJson, hacc]
          · simp at h

/-- A remainder usable after a rendered value: empty, or starting with a
separator or closing bracket. -/
def delimOk (x : List Char) : Prop :=
  x = [] ∨ ∃ c t, x = c :: t ∧ (c = ',' ∨ c = ']' ∨ c = '}')

/-- Such remainders cannot extend a number lexeme. -/
theorem delimOk_noNumHead (x : List Char) (h : delimOk x) : noNumHead x := by
  intro c t ht
  rcases h with h | ⟨c2, t2, hf, hc⟩
  · subst h
    cases ht
  · rw [hf] at ht
    injection ht with h1 _
    subst h1
    rcases hc with h2 | h2 | h2 <;> subst h2 <;> exact ⟨by decide, by decide, by decide, by decide⟩

/-- Eat a rendered colon. -/
theorem pcolon_cons (r : List Char) : pcolon (':' :: r) = some r := by
  simp [pcolon, skipWs_cons ':' r (by decide)]

/-- The first character of a rendered well-formed document: never
whitespace, never a closer or separator. -/
theorem render_head : ∀ j, okJson j = true →
    ∃ c t, render j = c :: t ∧ isWs c = false ∧ ¬c = ']' ∧ ¬c = '}' ∧ ¬c = ',' := by
  intro j hok
  cases j with
  | null => exact ⟨'n', "ull".data, rfl, by decide, by decide, by decide, by decide⟩
  | bool b =>
    cases b
    · exact ⟨'f', "alse".data, rfl, by decide, by decide, by decide, by decide⟩
    · exact ⟨'t', "rue".data, rfl, by decide, by decide, by decide, by decide⟩
  | num l =>
    have hnum : numOk l = true := by simpa [okJson] using hok
    obtain ⟨c, t, hf, hc⟩ := numOk_head l hnum
    subst hf
    refine ⟨c, t, by simp [render], ?_, ?_, ?_, ?_⟩
    · rcases hc with h | h
      · subst h
        decide
      · exact isWs_false_of_digit c h
    · rcases hc with h | h
      · subst h
        decide
      · exact ne_of_isDigit c ']' h (by decide)
    · rcases hc with h | h
      · subst h
        decide
      · exact ne_of_isDigit c '}' h (by decide)
    · rcases hc with h | h
      · subst h
        decide
      · exact ne_of_isDigit c ',' h (by decide)
  | str b =>
    exact ⟨'"', b ++ ['"'], by simp [render], by decide, by decide, by decide, by decide⟩
  | arr xs =>
    cases xs with
    | nil => exact ⟨'[', [']'], by simp [render], by decide, by decide, by decide, by decide⟩
    | cons x xs2 =>
      exact ⟨'[', render x ++ (renderTail xs2 ++ [']']), by simp [render],
        by decide, by decide, by decide, by decide⟩
  | obj kvs =>
    cases kvs with
    | nil => exact ⟨'{', ['}'], by simp [render], by decide, by decide, by decide, by decide⟩
    | cons kv kvs2 =>
      exact ⟨'{', renderKV kv ++ (renderKVTail kvs2 ++ ['}']), by simp [render],
        by decide, by decide, by decide, by decide⟩

/-- Replay of the array-tail loop over rendered elements. -/
theorem pstep_arrTail_replay (xs : List Json)
    (IH : ∀ x ∈ xs, ∀ f2 r2, (render x ++ r2).length < f2 → delimOk r2 →
          pstep f2 .val (render x ++ r2) = some (x, r2)) :
    ∀ (acc : List Json) (fuel : Nat) (rest : List Char),
      (renderTail xs ++ ']' :: rest).length < fuel → delimOk rest →
      pstep fuel (.arrTail acc) (renderTail xs ++ ']' :: rest) = some (.arr (acc ++ xs), rest) := by
  induction xs with
  | nil =>
    intro acc fuel rest hlen hrest
    cases fuel with
    | zero => exact absurd hlen (Nat.not_lt_zero _)
    | succ f =>
      simp only [renderTail, List.nil_append]
      simp only [pstep]
      rw [skipWs_cons ']' rest (by decide)]
      simp
  | cons y ys ihys =>
    intro acc fuel rest hlen hrest
    cases fuel with
    | zero => exact absurd hlen (Nat.not_lt_zero _)
    | succ f =>
      have hIHy := IH y (List.mem_cons_self y ys)
      have hIHys : ∀ x ∈ ys, ∀ f2 r2, (render x ++ r2).length < f2 → delimOk r2 →
          pstep f2 .val (render x ++ r2) = some (x, r2) :=
        fun x hx => IH x (List.mem_cons_of_mem y hx)
      simp only [renderTail, List.cons_append, List.append_assoc] at hlen ⊢
      have hd1 : delimOk (renderTail ys ++ ']' :: rest) := by
        cases ys with
        | nil => exact Or.inr ⟨']', rest, by simp [renderTail], Or.inr (Or.inl rfl)⟩
        | cons z zs =>
          exact Or.inr ⟨',', (render z ++ renderTail zs) ++ ']' :: rest,
            by simp [renderTail], Or.inl rfl⟩
      have hl1 : (render y ++ (renderTail ys ++ ']' :: rest)).length < f := by
        simp only [List.length_cons, List.length_append] at hlen ⊢
        omega
      have hl2 : (renderTail ys ++ ']' :: rest).length < f := by
        simp only [List.length_cons, List.length_append] at hlen ⊢
        omega
      simp only [pstep]
      rw [skipWs_cons ',' _ (by decide)]
      simp only []
      simp only [if_true]
      rw [hIHy f _ hl1 hd1]
      simp only []
      rw [ihys hIHys (acc ++ [y]) f rest hl2 hrest]
      simp

/-- Replay of the object-tail loop over rendered members. -/
theorem pstep_objTail_replay (kvs : List (List Char × Json))
    (IH : ∀ kv ∈ kvs, okBody kv.1 = true ∧
          ∀ f2 r2, (render kv.2 ++ r2).length < f2 → delimOk r2 →
          pstep f2 .val (render kv.2 ++ r2) = some (kv.2, r2)) :
    ∀ (acc : List (List Char × Json)) (fuel : Nat) (rest : List Char),
      (renderKVTail kvs ++ '}' :: rest).length < fuel → delimOk rest →
      pstep fuel (.objTail acc) (renderKVTail kvs ++ '}' :: rest)
        = some (.obj (acc ++ kvs), rest) := by
  induction kvs with
  | nil =>
    intro acc fuel rest hlen hrest
    cases fuel with
    | zero => exact absurd hlen (Nat.not_lt_zero _)
    | succ f =>
      simp only [renderKVTail, List.nil_append]
      simp only [pstep]
      rw [skipWs_cons '}' rest (by decide)]
      simp
  | cons kv kvs2 ihkvs =>
    intro acc fuel rest hlen hrest
    cases fuel with
    | zero => exact absurd hlen (Nat.not_lt_zero _)
    | succ f =>
      obtain ⟨k, v⟩ := kv
      have hIHkv := IH (k, v) (List.mem_cons_self _ kvs2)
      have hIHkvs : ∀ kv2 ∈ kvs2, okBody kv2.1 = true ∧
          ∀ f2 r2, (render kv2.2 ++ r2).length < f2 → delimOk r2 →
          pstep f2 .val (render kv2.2 ++ r2) = some (kv2.2, r2) :=
        fun kv2 hkv2 => IH kv2 (List.mem_cons_of_mem _ hkv2)
      simp only [renderKVTail, renderKV, List.cons_append, List.append_assoc] at hlen ⊢
      have hd1 : delimOk (renderKVTail kvs2 ++ '}' :: rest) := by
        cases kvs2 with
        | nil => exact Or.inr ⟨'}', rest, by simp [renderKVTail], Or.inr (Or.inr rfl)⟩
        | cons z zs =>
          exact Or.inr ⟨',', (renderKV z ++ renderKVTail zs) ++ '}' :: rest,
            by simp [renderKVTail], Or.inl rfl⟩
      have hl1 : (render v ++ (renderKVTail kvs2 ++ '}' :: rest)).length < f := by
        simp only [List.length_cons, List.length_append] at hlen ⊢
        omega
      have hl2 : (renderKVTail kvs2 ++ '}' :: rest).length < f := by
        simp only [List.length_cons, List.length_append] at hlen ⊢
        omega
      simp only [pstep]
      rw [skipWs_cons ',' _ (by decide)]
      simp only []
      simp only [if_true]
      rw [skipWs_cons '"' _ (by decide)]
      simp only []
      rw [pstr_replay k hIHkv.1 (':' :: (render v ++ (renderKVTail kvs2 ++ '}' :: rest)))]
      simp only []
      rw [pcolon_cons]
      simp only []
      rw [hIHkv.2 f _ hl1 hd1]
      simp only []
      rw [ihkvs hIHkvs (acc ++ [(k, v)]) f rest hl2 hrest]
      simp

/-- Parser completeness: a rendered well-formed document, followed by a
delimiter-headed remainder, parses back to exactly that document, given
fuel beyond the input length. -/
theorem pstep_val_replay : ∀ j, okJson j = true → ∀ (fuel : Nat) (rest : List Char),
    (render j ++ rest).length < fuel → delimOk rest →
    pstep fuel .val (render j ++ rest) = some (j, rest) := by
  intro j
  induction j using json_ind with
  | h1 =>
    intro _ fuel rest hlen hrest
    cases fuel with
    | zero => exact absurd hlen (Nat.not_lt_zero _)
    | succ f =>
      simp only [render, List.cons_append, List.nil_append]
      rfl
  | h2 b =>
    intro _ fuel rest hlen hrest
    cases fuel with
    | zero => exact absurd hlen (Nat.not_lt_zero _)
    | succ f =>
      cases b <;> simp only [render, List.cons_append, List.nil_append] <;> rfl
  | h3 l =>
    intro hok fuel rest hlen hrest
    have hnum : numOk l = true := by simpa [okJson] using hok
    obtain ⟨c, t, hf, hc⟩ := numOk_head l hnum
    cases fuel with
    | zero => exact absurd hlen (Nat.not_lt_zero _)
    | succ f =>
      simp only [render] at hlen ⊢
      have hrep := numOk_replay _ hnum rest (delimOk_noNumHead rest hrest)
      subst hf
      rw [List.cons_append] at hrep ⊢
      rcases hc with hdash | hdig
      · subst hdash
        simp [pstep, skipWs, isWs, hrep]
      · have hws := isWs_false_of_digit c hdig
        have hne1 := ne_of_isDigit c '{' hdig (by decide)
        have hne2 := ne_of_isDigit c '[' hdig (by decide)
        have hne3 := ne_of_isDigit c '"' hdig (by decide)
        simp [pstep, skipWs, hws, hne1, hne2, hne3, hdig, hrep]
  | h4 b =>
    intro hok fuel rest hlen hrest
    have hb : okBody b = true := by simpa [okJson] using hok
    cases fuel with
    | zero => exact absurd hlen (Nat.not_lt_zero _)
    | succ f =>
      simp only [render, List.cons_append, List.append_assoc, List.nil_append] at hlen ⊢
      have hrep := pstr_replay b hb rest
      simp [pstep, skipWs, isWs, hrep]
  | h5 xs ihxs =>
    intro hok fuel rest hlen hrest
    cases xs with
    | nil =>
      cases fuel with
      | zero => exact absurd hlen (Nat.not_lt_zero _)
      | succ f =>
        simp only [render, List.cons_append, List.nil_append]
        rfl
    | cons x xs2 =>
      have hokm : okJson x = true ∧ okList xs2 = true := by
        have := hok
        simp only [okJson, okList, Bool.and_eq_true] at this
        exact this
      cases fuel with
      | zero => exact absurd hlen (Nat.not_lt_zero _)
      | succ f =>
        simp only [render, List.cons_append, List.append_assoc, List.nil_append] at hlen ⊢
        simp only [pstep]
        rw [skipWs_cons '[' _ (by decide)]
        simp only []
        rw [if_neg (show ¬('[' : Char) = '{' by decide)]
        simp only [if_true]
        obtain ⟨c2, t2, hre, hws, hbr, _, _⟩ := render_head x hokm.1
        rw [hre, List.cons_append, skipWs_cons c2 _ hws]
        simp only []
        rw [if_neg hbr]
        rw [← List.cons_append, ← hre]
        have hd1 : delimOk (renderTail xs2 ++ ']' :: rest) := by
          cases xs2 with
          | nil => exact Or.inr ⟨']', rest, by simp [renderTail], Or.inr (Or.inl rfl)⟩
          | cons z zs =>
            exact Or.inr ⟨',', (render z ++ renderTail zs) ++ ']' :: rest,
              by simp [renderTail], Or.inl rfl⟩
        have hrx : (render x).length = t2.length + 1 := by
          rw [hre]
          simp
        have hl1 : (render x ++ (renderTail xs2 ++ ']' :: rest)).length < f := by
          simp only [List.length_cons, List.length_append] at hlen ⊢
          omega
        have hl2 : (renderTail xs2 ++ ']' :: rest).length < f := by
          simp only [List.length_cons, List.length_append] at hlen ⊢
          omega
        rw [ihxs x (List.mem_cons_self x xs2) hokm.1 f _ hl1 hd1]
        simp only []
        have hloop := pstep_arrTail_replay xs2
          (fun z hz => ihxs z (List.mem_cons_of_mem x hz) ((okList_iff xs2).mp hokm.2 z hz))
          [x] f rest hl2 hrest
        rw [hloop]
        simp
  | h6 kvs ihkvs =>
    intro hok fuel rest hlen hrest
    cases kvs with
    | nil =>
      cases fuel with
      | zero => exact absurd hlen (Nat.not_lt_zero _)
      | succ f =>
        simp only [render, List.cons_append, List.nil_append]
        rfl
    | cons kv kvs2 =>
      obtain ⟨k, v⟩ := kv
      have hokm : (okBody k = true ∧ okJson v = true) ∧ okKVs kvs2 = true := by
        have := hok
        simp only [okJson, okKVs, Bool.and_eq_true] at this
        exact this
      cases fuel with
      | zero => exact absurd hlen (Nat.not_lt_zero _)
      | succ f =>
        simp only [render, renderKV, List.cons_append, List.append_assoc, List.nil_append]
          at hlen ⊢
        simp only [pstep]
        rw [skipWs_cons '{' _ (by decide)]
        simp only [if_true]
        rw [skipWs_cons '"' _ (by decide)]
        simp only []
        rw [if_neg (show ¬('"' : Char) = '}' by decide)]
        simp only [if_true]
        rw [pstr_replay k hokm.1.1 (':' :: (render v ++ (renderKVTail kvs2 ++ '}' :: rest)))]
        simp only []
        rw [pcolon_cons]
        simp only []
        have hd1 : delimOk (renderKVTail kvs2 ++ '}' :: rest) := by
          cases kvs2 with
          | nil => exact Or.inr ⟨'}', rest, by simp [renderKVTail], Or.inr (Or.inr rfl)⟩
          | cons z zs =>
            exact Or.inr ⟨',', (renderKV z ++ renderKVTail zs) ++ '}' :: rest,
              by simp [renderKVTail], Or.inl rfl⟩
        have hl1 : (render v ++ (renderKVTail kvs2 ++ '}' :: rest)).length < f := by
          simp only [List.length_cons, List.length_append] at hlen ⊢
          omega
        have hl2 : (renderKVTail kvs2 ++ '}' :: rest).length < f := by
          simp only [List.length_cons, List.length_append] at hlen ⊢
          omega
        rw [ihkvs (k, v) (List.mem_cons_self _ kvs2) hokm.1.2 f _ hl1 hd1]
        simp only []
        have hloop := pstep_objTail_replay kvs2
          (fun kv2 hkv2 => ⟨((okKVs_iff kvs2).mp hokm.2 kv2 hkv2).1,
            ihkvs kv2 (List.mem_cons_of_mem _ hkv2) ((okKVs_iff kvs2).mp hokm.2 kv2 hkv2).2⟩)
          [(k, v)] f rest hl2 hrest
        rw [hloop]
        simp

/-- Everything parseJSON returns is a well-formed document. -/
theorem parseJSON_ok (s : String) : okJson (parseJSON s) = true := by
  unfold parseJSON
  by_cases hv : gjsonValid s
  · simp only [hv, Bool.not_true, Bool.false_eq_true, if_false]
    unfold gjsonValid at hv
    unfold gjsonParse
    cases hp : pstep (s.data.length + 1) .val s.data with
    | none => rw [hp] at hv; simp at hv
    | some vr =>
      cases vr with
      | mk v r =>
        simp only []
        exact (pstep_ok _ _ _ _ _ hp : okJson v = true)
  · simp only [Bool.not_eq_true] at hv
    simp only [hv, Bool.not_false, if_true]
    decide

/-- Rendering a well-formed document gives valid text that parses back
to the same document. -/
theorem renderString_parse (v : Json) (hok : okJson v = true) :
    gjsonValid (String.mk (render v)) = true ∧ gjsonParse (String.mk (render v)) = v := by
  have hdata : (String.mk (render v)).data = render v := rfl
  have hrep := pstep_val_replay v hok ((render v).length + 1) [] (by simp) (Or.inl rfl)
  rw [List.append_nil] at hrep
  constructor
  · unfold gjsonValid
    rw [hdata, hrep]
    rfl
  · unfold gjsonParse
    rw [hdata, hrep]

/-- C8: parsing invalid or empty text yields the empty document; the
parse is a pure function, so parsing the same text twice gives the same
value; re-parsing the rendering of any parsed result yields the same
document. -/
theorem C8_parse_total_roundtrip (s : String) :
    (gjsonValid s = false → parseJSON s = Json.obj [])
    ∧ parseJSON "" = Json.obj []
    ∧ parseJSON s = parseJSON s
    ∧ parseJSON (String.mk (render (parseJSON s))) = parseJSON s := by
  refine ⟨?_, rfl, rfl, ?_⟩
  · intro hv
    unfold parseJSON
    rw [hv]
    rfl
  · have hok := parseJSON_ok s
    generalize hpv : parseJSON s = v at hok ⊢
    obtain ⟨hval, hparse⟩ := renderString_parse v hok
    unfold parseJSON
    simp [hval, hparse]

/-- C8 witness: invalid text parses to the empty document, and a
round-trip on a concrete array document returns it unchanged. -/
theorem C8_witness :
    parseJSON "not json" = Json.obj []
    ∧ parseJSON (String.mk (render (parseJSON "[1,true]"))) = parseJSON "[1,true]" :=
  ⟨(C8_parse_total_roundtrip "not json").1 (by decide),
    (C8_parse_total_roundtrip "[1,true]").2.2.2⟩
